import Mathlib

/-
Shallow embedding of the multilinear-extension evaluation engine
(src/multilinear/{error,traits,mle}.rs of the sumcheck repository).

Modelling conventions:
  * the Rust generic `F: Field` becomes a Lean `Field F` with decidable
    equality (ark fields have `Eq + Hash`);
  * the `HashMap<Vec<F>, F>` backing a `BCubeMapOracle` becomes an
    association list `List (List F × F)` whose list order stands for the
    hash map's (unspecified) iteration order; the hash map's structural
    invariant that keys are distinct appears as a `Nodup` hypothesis where
    a theorem needs it;
  * `Result<T, E>` becomes `Except E T`;
  * a `todo!()` panic aborts the process, which no `Except` value can
    represent, so `evaluate` returns `Option (Except MLEError F)` with
    `none` standing for the abort; every non-panicking path returns `some`.
-/

namespace Sumcheck

set_option linter.unusedSectionVars false

/-- Decidable equality of `Except` values, for evaluating the embedding on
concrete inputs. -/
instance {ε α : Type} [DecidableEq ε] [DecidableEq α] :
    DecidableEq (Except ε α) := fun a b =>
  match a, b with
  | .error x, .error y =>
    if h : x = y then isTrue (by rw [h])
    else isFalse (by intro hc; injection hc; contradiction)
  | .ok x, .ok y =>
    if h : x = y then isTrue (by rw [h])
    else isFalse (by intro hc; injection hc; contradiction)
  | .error _, .ok _ => isFalse (fun hc => Except.noConfusion hc)
  | .ok _, .error _ => isFalse (fun hc => Except.noConfusion hc)

/-- Error kinds raised while constructing or querying an oracle
(src/multilinear/error.rs, `OracleError`). -/
inductive OracleError where
  | IncorrectOracleSize
  | IncorrectOraclePointDimension (expected found : Nat)
  | NonbooleanOraclePoint
  | PointNotFound
deriving DecidableEq

/-- Error kinds raised while evaluating a multilinear extension
(src/multilinear/error.rs, `MLEError`). -/
inductive MLEError where
  | WrongDimension (expected found : Nat)
  | InconsistentDimensions (b_dim z_dim : Nat)
  | Oracle (e : OracleError)
deriving DecidableEq

/-- Sparse oracle: a mapping from boolean hypercube points to field values
(src/multilinear/mle.rs, `BCubeMapOracle`).  The `HashMap<Vec<F>, F>` is
modelled as an association list in iteration order. -/
structure BCubeMapOracle (F : Type) where
  dim : Nat
  map : List (List F × F)
deriving DecidableEq

variable {F : Type} [Field F] [DecidableEq F]

/-- Key lookup in the association list, modelling `HashMap::get`. -/
def lookupKey : List (List F × F) → List F → Option F
  | [], _ => none
  | e :: rest, point => if e.1 = point then some e.2 else lookupKey rest point

/-- Validity of one map entry: the key has length `dim` and every coordinate
is boolean.  This is what the loop body of `BCubeMapOracle::new` checks. -/
def entryValid (dim : Nat) (e : List F × F) : Prop :=
  e.1.length = dim ∧ ∀ x ∈ e.1, x = 0 ∨ x = 1

instance (dim : Nat) (e : List F × F) : Decidable (entryValid dim e) := by
  unfold entryValid; infer_instance

/-- The entry-checking loop of `BCubeMapOracle::new` (src/multilinear/mle.rs
lines 44-57): for each entry, in iteration order, first the key's length is
checked, then boolean-ness of all its coordinates; the first violation is
returned. -/
def checkEntries (dim : Nat) : List (List F × F) → Except OracleError Unit
  | [] => .ok ()
  | (point, _) :: rest =>
    if point.length ≠ dim then
      .error (.IncorrectOraclePointDimension dim point.length)
    else if ¬ (∀ x ∈ point, x = 0 ∨ x = 1) then
      .error .NonbooleanOraclePoint
    else
      checkEntries dim rest

/-- Constructor `BCubeMapOracle::new(dim, map)` (src/multilinear/mle.rs
lines 33-60): checks the map size against `1 << dim`, then every entry. -/
def BCubeMapOracle.new (dim : Nat) (map : List (List F × F)) :
    Except OracleError (BCubeMapOracle F) :=
  let npoints := 1 <<< dim
  if map.length ≠ npoints then
    .error .IncorrectOracleSize
  else
    match checkEntries dim map with
    | .error e => .error e
    | .ok _ => .ok ⟨dim, map⟩

/-- Query on the sparse oracle (src/multilinear/mle.rs lines 86-92,
`BCubeMap::query` for `BCubeMapOracle`): a map lookup, `PointNotFound`
when the key is absent. -/
def BCubeMapOracle.query (o : BCubeMapOracle F) (point : List F) :
    Except OracleError F :=
  match lookupKey o.map point with
  | some v => .ok v
  | none => .error .PointNotFound

/-- Helper `to_bcube_elt(dim, n)` (src/multilinear/mle.rs lines 197-207):
the boolean hypercube element of `F^dim` whose coordinate `i` is bit `i`
of `n` (least-significant first). -/
def to_bcube_elt (dim n : Nat) : List F :=
  (List.range dim).map fun i => if (n >>> i) &&& 1 = 1 then (1 : F) else 0

/-- Map insertion, modelling `HashMap::insert`: replaces the value when the
key is present, otherwise adds the entry. -/
def insertKV : List (List F × F) → List F → F → List (List F × F)
  | [], k, v => [(k, v)]
  | e :: rest, k, v => if e.1 = k then (k, v) :: rest else e :: insertKV rest k v

/-- Constructor `BCubeMapOracle::new_rand(dim, rng)` (src/multilinear/mle.rs
lines 62-81): inserts `(to_bcube_elt(dim, n), rng draw n)` for every
`n` in `0..(1 << dim)` and then delegates to `new`.  The random source is
modelled as the sequence `vals` of its successive draws. -/
def BCubeMapOracle.new_rand (dim : Nat) (vals : Nat → F) :
    Except OracleError (BCubeMapOracle F) :=
  let num_points := 1 <<< dim
  let map := (List.range num_points).foldl
    (fun m n => insertKV m (to_bcube_elt dim n) (vals n)) []
  BCubeMapOracle.new dim map

/-- Evaluation strategies (src/multilinear/mle.rs, `EvaluationType`). -/
inductive EvaluationType where
  | Naive
  | Zhu
  | Rothblum
  | Ramakrishna
deriving DecidableEq

/-- Multilinear extension bound to one oracle, a declared dimension and a
strategy (src/multilinear/mle.rs, `MultilinearExtension`); the claims use
it at the sparse oracle, so `M` is instantiated at `BCubeMapOracle F`.
The `PhantomData` marker field is omitted. -/
structure MultilinearExtension (F : Type) where
  oracle : BCubeMapOracle F
  dim : Nat
  strategy : EvaluationType
deriving DecidableEq

/-- Constructor `MultilinearExtension::new` (src/multilinear/mle.rs
lines 123-130): pure composition, no validation. -/
def MultilinearExtension.new (oracle : BCubeMapOracle F) (dim : Nat)
    (strategy : EvaluationType) : MultilinearExtension F :=
  ⟨oracle, dim, strategy⟩

/-- The product part of the Lagrange basis `eq(b, z)`:
the per-coordinate product of `b_j * z_j + (1 - b_j) * (1 - z_j)`. -/
def eqP (b z : List F) : F :=
  ((b.zip z).map fun p => p.1 * p.2 + (1 - p.1) * (1 - p.2)).prod

/-- Helper `eq(b, z)` (src/multilinear/mle.rs lines 179-192): checks the
two lengths agree, then returns the Lagrange-basis product. -/
def eq (b z : List F) : Except MLEError F :=
  if b.length ≠ z.length then
    .error (.InconsistentDimensions b.length z.length)
  else
    .ok (eqP b z)

/-- The `try_fold` at the heart of naive evaluation (src/multilinear/mle.rs
lines 144-147): accumulates `acc + f_b * eq(b, z)` over the oracle's
entries, short-circuiting on the first error from `eq`. -/
def naiveFold (z : List F) : F → List (List F × F) → Except MLEError F
  | acc, [] => .ok acc
  | acc, e :: rest =>
    match eq e.1 z with
    | .error err => .error err
    | .ok chi => naiveFold z (acc + e.2 * chi) rest

/-- Naive evaluation (src/multilinear/mle.rs lines 135-148): checks
`z.len() == self.dim`, then folds over the oracle's entries. -/
def MultilinearExtension.naive (m : MultilinearExtension F) (z : List F) :
    Except MLEError F :=
  if z.length ≠ m.dim then
    .error (.WrongDimension m.dim z.length)
  else
    naiveFold z 0 m.oracle.map

/-- Strategy dispatch of `MLE::evaluate` (src/multilinear/mle.rs
lines 166-175).  The `Zhu`, `Rothblum` and `Ramakrishna` arms call
`todo!()`, which aborts the process; the abort is modelled as `none`. -/
def MultilinearExtension.evaluate (m : MultilinearExtension F) (z : List F) :
    Option (Except MLEError F) :=
  match m.strategy with
  | .Naive => some (m.naive z)
  | .Zhu => none
  | .Rothblum => none
  | .Ramakrishna => none

/-- Modelled from the spec: the dense, index-addressed oracle
(`DenseOracle`, spec section 4.2).  Its definition is not under src/ — only its
callers in src/bin/benchmark.rs and src/bin/profile_memory.rs are — so it
is modelled from the spec: it is backed by a sequence of exactly `2^dim`
field values, point `i` mapping to entry `i`. -/
structure DenseOracle (F : Type) where
  dim : Nat
  values : List F
deriving DecidableEq

/-- Modelled from the spec: `DenseOracle::new(dim, values)` "fails with
IncorrectOracleSize unless values.length == 2^dim" (spec section 4.2). -/
def DenseOracle.new (dim : Nat) (values : List F) :
    Except OracleError (DenseOracle F) :=
  if values.length ≠ 1 <<< dim then
    .error .IncorrectOracleSize
  else
    .ok ⟨dim, values⟩

/-- Modelled from the spec: dense-oracle query is "pure index lookup, O(1)",
with an out-of-range index yielding `PointNotFound` (spec sections 4.1-4.2). -/
def DenseOracle.query (o : DenseOracle F) (i : Nat) : Except OracleError F :=
  match o.values[i]? with
  | some v => .ok v
  | none => .error .PointNotFound

/-! Basic facts about `to_bcube_elt` and its inverse on boolean lists. -/

theorem shiftRight_succ_div (n i : Nat) : n >>> (i + 1) = (n / 2) >>> i := by
  induction i with
  | zero => simp [Nat.shiftRight_succ, Nat.shiftRight_zero]
  | succ i ih => rw [Nat.shiftRight_succ, ih, Nat.shiftRight_succ]

theorem to_bcube_elt_zero_dim (n : Nat) : to_bcube_elt (F := F) 0 n = [] := by
  simp [to_bcube_elt]

theorem to_bcube_elt_succ (d n : Nat) :
    to_bcube_elt (F := F) (d + 1) n
      = (if n % 2 = 1 then (1 : F) else 0) :: to_bcube_elt d (n / 2) := by
  unfold to_bcube_elt
  rw [List.range_succ_eq_map, List.map_cons, List.map_map]
  congr 1
  · simp [Nat.and_one_is_mod]
  · apply List.map_congr_left
    intro i _
    simp [Function.comp, Nat.succ_eq_add_one, shiftRight_succ_div]

theorem length_to_bcube_elt (d n : Nat) :
    (to_bcube_elt (F := F) d n).length = d := by
  simp [to_bcube_elt]

theorem to_bcube_elt_boolean (d n : Nat) :
    ∀ x ∈ to_bcube_elt (F := F) d n, x = 0 ∨ x = 1 := by
  intro x hx
  simp only [to_bcube_elt, List.mem_map, List.mem_range] at hx
  obtain ⟨i, _, rfl⟩ := hx
  rcases Nat.mod_two_eq_zero_or_one (n >>> i) with h | h
  · left
    simp [Nat.and_one_is_mod, h]
  · right
    simp [Nat.and_one_is_mod, h]

/-- Decoder of a boolean hypercube element back to its index: the inverse,
on boolean lists, of `to_bcube_elt` (least-significant coordinate first). -/
def decodeB : List F → Nat
  | [] => 0
  | x :: rest => (if x = 1 then 1 else 0) + 2 * decodeB rest

theorem decodeB_to_bcube_elt (d : Nat) :
    ∀ n < 2 ^ d, decodeB (to_bcube_elt (F := F) d n) = n := by
  induction d with
  | zero =>
    intro n hn
    have : n = 0 := by omega
    subst this
    simp [to_bcube_elt_zero_dim, decodeB]
  | succ d ih =>
    intro n hn
    have h2 : n / 2 < 2 ^ d := by
      have : 2 ^ (d + 1) = 2 * 2 ^ d := by ring
      omega
    rw [to_bcube_elt_succ, decodeB, ih (n / 2) h2]
    have hhead : (if (if n % 2 = 1 then (1 : F) else 0) = 1 then 1 else 0) = n % 2 := by
      rcases Nat.mod_two_eq_zero_or_one n with h | h <;>
        simp [h, (zero_ne_one (α := F))]
    rw [hhead]
    omega

theorem decodeB_lt (l : List F) : decodeB l < 2 ^ l.length := by
  induction l with
  | nil => simp [decodeB]
  | cons x rest ih =>
    rw [decodeB, List.length_cons, pow_succ]
    by_cases h : x = 1 <;> simp [h] <;> omega

theorem to_bcube_elt_decodeB :
    ∀ l : List F, (∀ x ∈ l, x = 0 ∨ x = 1) →
      to_bcube_elt l.length (decodeB l) = l := by
  intro l
  induction l with
  | nil => intro _; simp [to_bcube_elt_zero_dim]
  | cons x rest ih =>
    intro hb
    have hx : x = 0 ∨ x = 1 := hb x (by simp)
    have hrest : ∀ y ∈ rest, y = 0 ∨ y = 1 := fun y hy => hb y (by simp [hy])
    rw [List.length_cons, to_bcube_elt_succ]
    rcases hx with hx | hx <;> subst hx
    · have h0 : (if (0 : F) = 1 then 1 else 0) = 0 := by
        simp [(zero_ne_one (α := F))]
      rw [decodeB, h0]
      have hmod : (0 + 2 * decodeB rest) % 2 = 0 := by omega
      have hdiv : (0 + 2 * decodeB rest) / 2 = decodeB rest := by omega
      rw [hmod, hdiv, ih hrest]
      simp
    · have h1 : (if (1 : F) = 1 then 1 else 0) = 1 := by simp
      rw [decodeB, h1]
      have hmod : (1 + 2 * decodeB rest) % 2 = 1 := by omega
      have hdiv : (1 + 2 * decodeB rest) / 2 = decodeB rest := by omega
      rw [hmod, hdiv, ih hrest]
      simp

theorem to_bcube_elt_injOn (d a b : Nat) (ha : a < 2 ^ d) (hb : b < 2 ^ d)
    (h : to_bcube_elt (F := F) d a = to_bcube_elt (F := F) d b) : a = b := by
  rw [← decodeB_to_bcube_elt (F := F) d a ha, h,
    decodeB_to_bcube_elt (F := F) d b hb]

/-! Characterizations of the constructor checks. -/

theorem checkEntries_ok_iff (d : Nat) (m : List (List F × F)) :
    checkEntries d m = .ok () ↔ ∀ e ∈ m, entryValid d e := by
  induction m with
  | nil => simp [checkEntries]
  | cons e rest ih =>
    obtain ⟨point, v⟩ := e
    by_cases h1 : point.length = d
    · by_cases h2 : ∀ x ∈ point, x = 0 ∨ x = 1
      · simp only [checkEntries]
        rw [if_neg (by omega), if_neg (not_not_intro h2), ih]
        constructor
        · intro hrest e he
          rcases List.mem_cons.mp he with rfl | he
          · exact ⟨h1, h2⟩
          · exact hrest e he
        · intro hall e he
          exact hall e (List.mem_cons_of_mem _ he)
      · simp only [checkEntries]
        rw [if_neg (by omega), if_pos h2]
        constructor
        · intro h
          exact Except.noConfusion h
        · intro hall
          exact absurd (hall (point, v) (by simp)).2 h2
    · simp only [checkEntries]
      rw [if_pos (by omega)]
      constructor
      · intro h
        exact Except.noConfusion h
      · intro hall
        exact absurd (hall (point, v) (by simp)).1 h1

theorem new_ok_iff (d : Nat) (m : List (List F × F)) (o : BCubeMapOracle F) :
    BCubeMapOracle.new d m = .ok o ↔
      m.length = 2 ^ d ∧ (∀ e ∈ m, entryValid d e) ∧ o = ⟨d, m⟩ := by
  unfold BCubeMapOracle.new
  rw [Nat.shiftLeft_eq, one_mul]
  by_cases hlen : m.length = 2 ^ d
  · rw [if_neg (not_not_intro hlen)]
    cases hc : checkEntries d m with
    | ok u =>
      obtain ⟨⟩ := u
      have hall := (checkEntries_ok_iff d m).mp hc
      constructor
      · intro h
        injection h with h
        exact ⟨hlen, hall, h.symm⟩
      · rintro ⟨-, -, rfl⟩
        rfl
    | error err =>
      constructor
      · intro h
        exact Except.noConfusion h
      · rintro ⟨-, hall2, -⟩
        have hok := (checkEntries_ok_iff d m).mpr hall2
        rw [hc] at hok
        exact Except.noConfusion hok
  · rw [if_pos hlen]
    constructor
    · intro h
      exact Except.noConfusion h
    · rintro ⟨h1, -, -⟩
      exact absurd h1 hlen

theorem new_err_size (d : Nat) (m : List (List F × F))
    (hlen : m.length ≠ 2 ^ d) :
    BCubeMapOracle.new d m = .error .IncorrectOracleSize := by
  unfold BCubeMapOracle.new
  rw [Nat.shiftLeft_eq, one_mul]
  simp [hlen]

/-! Facts about the Lagrange-basis product and the naive fold. -/

theorem eqP_nil : eqP ([] : List F) [] = 1 := rfl

theorem eqP_cons (b z : F) (bs zs : List F) :
    eqP (b :: bs) (z :: zs) = (b * z + (1 - b) * (1 - z)) * eqP bs zs := by
  simp [eqP]

theorem eq_ok (b z : List F) (h : b.length = z.length) :
    eq b z = .ok (eqP b z) := by
  simp [eq, h]

theorem naiveFold_ok (z : List F) (m : List (List F × F))
    (h : ∀ e ∈ m, e.1.length = z.length) (acc : F) :
    naiveFold z acc m = .ok (acc + (m.map fun e => e.2 * eqP e.1 z).sum) := by
  induction m generalizing acc with
  | nil => simp [naiveFold]
  | cons e rest ih =>
    have he : e.1.length = z.length := h e (by simp)
    rw [naiveFold, eq_ok _ _ he]
    show naiveFold z (acc + e.2 * eqP e.1 z) rest = _
    rw [ih (fun x hx => h x (by simp [hx]))]
    simp [List.map_cons, List.sum_cons, add_assoc]

/-! A valid oracle's key set covers the whole hypercube: `2 ^ d` distinct
boolean keys of length `d` are necessarily all of them. -/

theorem keys_complete (d : Nat) (m : List (List F × F))
    (hlen : m.length = 2 ^ d)
    (hnodup : (m.map Prod.fst).Nodup)
    (hvalid : ∀ e ∈ m, entryValid d e) :
    ∀ i < 2 ^ d, to_bcube_elt (F := F) d i ∈ m.map Prod.fst := by
  intro i hi
  have hkbool : ∀ k ∈ m.map Prod.fst, k.length = d ∧ ∀ x ∈ k, x = 0 ∨ x = 1 := by
    intro k hk
    obtain ⟨e, he, rfl⟩ := List.mem_map.mp hk
    exact hvalid e he
  have hround : ∀ k ∈ m.map Prod.fst, to_bcube_elt (F := F) d (decodeB k) = k := by
    intro k hk
    obtain ⟨hkl, hkb⟩ := hkbool k hk
    have h := to_bcube_elt_decodeB k hkb
    rwa [hkl] at h
  have hnodup2 : ((m.map Prod.fst).map decodeB).Nodup := by
    refine List.Nodup.map_on ?_ hnodup
    intro x hx y hy hxy
    rw [← hround x hx, ← hround y hy, hxy]
  have hlt : ∀ n ∈ (m.map Prod.fst).map decodeB, n < 2 ^ d := by
    intro n hn
    obtain ⟨k, hk, rfl⟩ := List.mem_map.mp hn
    have h := decodeB_lt k
    rwa [(hkbool k hk).1] at h
  have hsub : ((m.map Prod.fst).map decodeB).toFinset ⊆ Finset.range (2 ^ d) := by
    intro n hn
    rw [List.mem_toFinset] at hn
    exact Finset.mem_range.mpr (hlt n hn)
  have hcard : ((m.map Prod.fst).map decodeB).toFinset.card = 2 ^ d := by
    rw [List.toFinset_card_of_nodup hnodup2]
    simp [hlen]
  have heq : ((m.map Prod.fst).map decodeB).toFinset = Finset.range (2 ^ d) :=
    Finset.eq_of_subset_of_card_le hsub (by rw [hcard, Finset.card_range])
  have hi2 : i ∈ (m.map Prod.fst).map decodeB := by
    rw [← List.mem_toFinset, heq]
    exact Finset.mem_range.mpr hi
  obtain ⟨k, hk, hdk⟩ := List.mem_map.mp hi2
  have hik : to_bcube_elt (F := F) d i = k := by rw [← hdk, hround k hk]
  rwa [hik]

/-! Lookup and the picked-out summand. -/

theorem lookupKey_isSome_of_mem (m : List (List F × F)) (z : List F)
    (h : z ∈ m.map Prod.fst) : ∃ v, lookupKey m z = some v := by
  induction m with
  | nil => simp at h
  | cons e rest ih =>
    by_cases he : e.1 = z
    · exact ⟨e.2, by simp [lookupKey, he]⟩
    · rw [List.map_cons, List.mem_cons] at h
      rcases h with h | h
      · exact absurd h.symm he
      · obtain ⟨v, hv⟩ := ih h
        exact ⟨v, by simp [lookupKey, he, hv]⟩

theorem sum_pick (m : List (List F × F)) (z : List F) (v : F)
    (hnodup : (m.map Prod.fst).Nodup)
    (hv : lookupKey m z = some v) :
    (m.map fun e => e.2 * (if e.1 = z then (1 : F) else 0)).sum = v := by
  induction m with
  | nil => simp [lookupKey] at hv
  | cons e rest ih =>
    rw [List.map_cons, List.nodup_cons] at hnodup
    by_cases he : e.1 = z
    · rw [lookupKey, if_pos he] at hv
      injection hv with hv
      subst hv
      have hzrest : ∀ x ∈ rest, ¬ (x.1 = z) := by
        intro x hx hxz
        apply hnodup.1
        rw [he, ← hxz]
        exact List.mem_map_of_mem Prod.fst hx
      have hzero : (rest.map fun x => x.2 * (if x.1 = z then (1 : F) else 0)).sum = 0 := by
        apply List.sum_eq_zero
        intro y hy
        obtain ⟨x, hx, rfl⟩ := List.mem_map.mp hy
        rw [if_neg (hzrest x hx), mul_zero]
      rw [List.map_cons, List.sum_cons, if_pos he, hzero, mul_one, add_zero]
    · rw [lookupKey, if_neg he] at hv
      rw [List.map_cons, List.sum_cons, if_neg he, mul_zero, zero_add]
      exact ih hnodup.2 hv

/-! On boolean arguments, the Lagrange basis is the equality indicator. -/

theorem eqP_boolean (b z : List F) (hlen : b.length = z.length)
    (hb : ∀ x ∈ b, x = 0 ∨ x = 1) (hz : ∀ x ∈ z, x = 0 ∨ x = 1) :
    eqP b z = if b = z then 1 else 0 := by
  induction b generalizing z with
  | nil =>
    cases z with
    | nil => simp [eqP_nil]
    | cons _ _ => simp at hlen
  | cons x bs ih =>
    cases z with
    | nil => simp at hlen
    | cons y zs =>
      rw [eqP_cons]
      have hx : x = 0 ∨ x = 1 := hb x (by simp)
      have hy : y = 0 ∨ y = 1 := hz y (by simp)
      have ihz := ih zs (by simpa using hlen)
        (fun a ha => hb a (by simp [ha])) (fun a ha => hz a (by simp [ha]))
      rcases hx with rfl | rfl <;> rcases hy with rfl | rfl
      · simp [ihz]
      · simp [(zero_ne_one (α := F))]
      · simp [(one_ne_zero (α := F))]
      · simp [ihz]

/-- For a well-dimensioned input, naive evaluation is the plain weighted
sum over the oracle's entries. -/
theorem naive_sum (o : BCubeMapOracle F) (d : Nat) (z : List F)
    (hd : z.length = d) (hkeys : ∀ e ∈ o.map, e.1.length = z.length) :
    (MultilinearExtension.new o d .Naive).naive z
      = .ok ((o.map.map fun e => e.2 * eqP e.1 z).sum) := by
  unfold MultilinearExtension.naive MultilinearExtension.new
  rw [if_neg (by simp [hd])]
  rw [naiveFold_ok z o.map hkeys 0, zero_add]

theorem evaluate_naive (o : BCubeMapOracle F) (d : Nat) (z : List F) :
    (MultilinearExtension.new o d .Naive).evaluate z
      = some ((MultilinearExtension.new o d .Naive).naive z) := rfl

theorem naive_wrong_dim (o : BCubeMapOracle F) (d : Nat) (z : List F)
    (hz : z.length ≠ d) :
    (MultilinearExtension.new o d .Naive).naive z
      = .error (.WrongDimension d z.length) := by
  simp [MultilinearExtension.naive, MultilinearExtension.new, hz]

/-- Claim C1: for every dimension `d`, every oracle successfully constructed
by `BCubeMapOracle::new(d, map)` (whose backing hash map, by the hash map's
structural invariant, has pairwise distinct keys), and every index
`i < 2 ^ d`, evaluating with the `Naive` strategy at the boolean point
`to_bcube_elt(d, i)` returns `Ok` of exactly the value the oracle stores at
that point, i.e. the value `query(to_bcube_elt(d, i))` returns. -/
theorem naive_interpolates_on_hypercube
    (d i : Nat) (m : List (List F × F)) (o : BCubeMapOracle F)
    (hnodup : (m.map Prod.fst).Nodup)
    (hnew : BCubeMapOracle.new d m = .ok o)
    (hi : i < 2 ^ d) :
    ∃ v, o.query (to_bcube_elt (F := F) d i) = .ok v ∧
      (MultilinearExtension.new o d .Naive).evaluate (to_bcube_elt (F := F) d i)
        = some (.ok v) := by
  obtain ⟨hlen, hvalid, rfl⟩ := (new_ok_iff d m o).mp hnew
  have hzlen : (to_bcube_elt (F := F) d i).length = d := length_to_bcube_elt d i
  have hzbool := to_bcube_elt_boolean (F := F) d i
  have hmem : to_bcube_elt (F := F) d i ∈ m.map Prod.fst :=
    keys_complete d m hlen hnodup hvalid i hi
  obtain ⟨v, hv⟩ := lookupKey_isSome_of_mem m _ hmem
  have hkeylen : ∀ e ∈ m, e.1.length = (to_bcube_elt (F := F) d i).length := by
    intro e he
    rw [hzlen]
    exact (hvalid e he).1
  refine ⟨v, ?_, ?_⟩
  · simp [BCubeMapOracle.query, hv]
  · rw [evaluate_naive, naive_sum ⟨d, m⟩ d _ hzlen hkeylen]
    have hmapeq : (m.map fun e => e.2 * eqP e.1 (to_bcube_elt (F := F) d i))
        = m.map fun e => e.2 * (if e.1 = to_bcube_elt (F := F) d i then (1 : F) else 0) := by
      apply List.map_congr_left
      intro e he
      rw [eqP_boolean e.1 _ (hkeylen e he) (hvalid e he).2 hzbool]
    rw [show ((⟨d, m⟩ : BCubeMapOracle F).map.map fun e => e.2 * eqP e.1 (to_bcube_elt (F := F) d i))
        = m.map fun e => e.2 * eqP e.1 (to_bcube_elt (F := F) d i) from rfl]
    rw [hmapeq, sum_pick m _ v hnodup hv]

/-- Witness for C1 at `d = 1`, the dense map `{[0] ↦ 3, [1] ↦ 5}` over `ℚ`
and index `i = 1`. -/
theorem naive_interpolates_on_hypercube_witness :
    (([([0], (3 : ℚ)), ([1], 5)].map Prod.fst).Nodup ∧
      BCubeMapOracle.new 1 [([0], (3 : ℚ)), ([1], 5)]
        = .ok ⟨1, [([0], 3), ([1], 5)]⟩ ∧
      1 < 2 ^ 1) ∧
    (∃ v, (⟨1, [([0], (3 : ℚ)), ([1], 5)]⟩ : BCubeMapOracle ℚ).query
          (to_bcube_elt 1 1) = .ok v ∧
      (MultilinearExtension.new ⟨1, [([0], 3), ([1], 5)]⟩ 1 .Naive).evaluate
          (to_bcube_elt 1 1) = some (.ok v)) :=
  ⟨⟨by decide, by decide, by decide⟩,
    naive_interpolates_on_hypercube 1 1 [([0], 3), ([1], 5)] _
      (by decide) (by decide) (by decide)⟩

/-- Claim C10: for every oracle successfully constructed by
`BCubeMapOracle::new(dim, map)` and every `z` of exactly the declared
dimension, naive evaluation returns `Ok`: no error variant is reachable
under these preconditions. -/
theorem naive_total_on_valid_oracle
    (d : Nat) (m : List (List F × F)) (o : BCubeMapOracle F) (z : List F)
    (hnew : BCubeMapOracle.new d m = .ok o)
    (hz : z.length = d) :
    ∃ v, (MultilinearExtension.new o d .Naive).evaluate z = some (.ok v) := by
  obtain ⟨hlen, hvalid, rfl⟩ := (new_ok_iff d m o).mp hnew
  have hkeylen : ∀ e ∈ m, e.1.length = z.length := by
    intro e he
    rw [hz]
    exact (hvalid e he).1
  exact ⟨_, by rw [evaluate_naive, naive_sum ⟨d, m⟩ d z hz hkeylen]⟩

/-- Witness for C10 at `d = 1`, the map `{[0] ↦ 3, [1] ↦ 5}` over `ℚ` and
the non-boolean point `z = [2]`. -/
theorem naive_total_on_valid_oracle_witness :
    (BCubeMapOracle.new 1 [([0], (3 : ℚ)), ([1], 5)]
        = .ok ⟨1, [([0], 3), ([1], 5)]⟩ ∧
      ([(2 : ℚ)]).length = 1) ∧
    ∃ v, (MultilinearExtension.new
        (⟨1, [([0], (3 : ℚ)), ([1], 5)]⟩ : BCubeMapOracle ℚ) 1 .Naive).evaluate
        [(2 : ℚ)] = some (.ok v) :=
  ⟨⟨by decide, by decide⟩,
    naive_total_on_valid_oracle 1 [([0], 3), ([1], 5)] _ [(2 : ℚ)]
      (by decide) (by decide)⟩

/-- Claim C6: at `dim = 0`, with the oracle storing exactly one value keyed
by the empty vector, construction succeeds and naive evaluation at the
empty point returns `Ok` of that sole stored value, for every field and
every stored value (the empty per-coordinate product being `1`). -/
theorem naive_dim_zero (v : F) :
    BCubeMapOracle.new 0 [([], v)] = .ok ⟨0, [([], v)]⟩ ∧
    (MultilinearExtension.new ⟨0, [([], v)]⟩ 0 .Naive).evaluate []
      = some (.ok v) := by
  constructor
  · rw [new_ok_iff]
    refine ⟨by simp, ?_, rfl⟩
    intro e he
    simp only [List.mem_singleton] at he
    subst he
    exact ⟨rfl, by simp⟩
  · rw [evaluate_naive, naive_sum ⟨0, [([], v)]⟩ 0 [] rfl ?_]
    · simp [eqP_nil]
    · intro e he
      simp only [List.mem_singleton] at he
      subst he
      rfl

/-- Claim C3, counterexample: with the unimplemented `Zhu` strategy and a
wrong-length input `z = []` on a dimension-1 oracle, `evaluate` aborts the
process (`todo!()`, modelled `none`) instead of failing with
`WrongDimension{expected: 1, found: 0}` — the dimension check sits inside
`naive`, after strategy dispatch, so it does not guard every strategy. -/
theorem dimension_guard_not_every_strategy :
    (MultilinearExtension.new
        (⟨1, [([0], (3 : ℚ)), ([1], 5)]⟩ : BCubeMapOracle ℚ) 1 .Zhu).evaluate []
      = none ∧
    ¬ (MultilinearExtension.new
        (⟨1, [([0], (3 : ℚ)), ([1], 5)]⟩ : BCubeMapOracle ℚ) 1 .Zhu).evaluate []
      = some (.error (.WrongDimension 1 0)) := by
  refine ⟨rfl, ?_⟩
  intro h
  rw [show (MultilinearExtension.new
      (⟨1, [([0], (3 : ℚ)), ([1], 5)]⟩ : BCubeMapOracle ℚ) 1 .Zhu).evaluate []
      = none from rfl] at h
  exact Option.noConfusion h

/-- Claim C3 as amended: for the `Naive` strategy (the only implemented
one), for every oracle, declared dimension `d` and input `z` with
`z.length ≠ d`, `evaluate` fails with
`WrongDimension{expected: d, found: z.length}`, before any oracle entry is
touched. -/
theorem naive_dimension_guard (o : BCubeMapOracle F) (d : Nat) (z : List F)
    (hz : z.length ≠ d) :
    (MultilinearExtension.new o d .Naive).evaluate z
      = some (.error (.WrongDimension d z.length)) := by
  rw [evaluate_naive, naive_wrong_dim o d z hz]

/-- Witness for the amended C3: a dimension-1 oracle evaluated at the
empty input fails with `WrongDimension{expected: 1, found: 0}`. -/
theorem naive_dimension_guard_witness :
    (([] : List ℚ).length ≠ 1) ∧
    (MultilinearExtension.new
        (⟨1, [([0], (3 : ℚ)), ([1], 5)]⟩ : BCubeMapOracle ℚ) 1 .Naive).evaluate []
      = some (.error (.WrongDimension 1 0)) :=
  ⟨by decide,
    naive_dimension_guard ⟨1, [([0], 3), ([1], 5)]⟩ 1 [] (by decide)⟩

/-- Claim C2, code behavior at the failing inputs: dispatching any of the
unimplemented strategies (`Zhu`, `Rothblum`, `Ramakrishna`) aborts the
process (`todo!()`, modelled `none`) for every oracle, dimension and input,
instead of returning a typed "strategy not implemented" error — indeed the
`MLEError` taxonomy has no such variant at all. -/
theorem unimplemented_strategies_abort (o : BCubeMapOracle F) (d : Nat)
    (z : List F) :
    (MultilinearExtension.new o d .Zhu).evaluate z = none ∧
    (MultilinearExtension.new o d .Rothblum).evaluate z = none ∧
    (MultilinearExtension.new o d .Ramakrishna).evaluate z = none :=
  ⟨rfl, rfl, rfl⟩

/-- Claim C4: the dense, index-addressed oracle: `new(dim, values)` fails
with `IncorrectOracleSize` unless `values.length = 2 ^ dim` (and otherwise
succeeds, storing the values unchanged), and `query` is pure index lookup,
an out-of-range index yielding `PointNotFound`.  Settled against the
spec-modelled `DenseOracle`, whose defining source is not under src/. -/
theorem dense_oracle_contract (d : Nat) (values : List F) :
    (values.length ≠ 2 ^ d →
      DenseOracle.new d values = .error .IncorrectOracleSize) ∧
    (values.length = 2 ^ d →
      DenseOracle.new d values = .ok ⟨d, values⟩) ∧
    (∀ o : DenseOracle F, ∀ i : Nat, ∀ h : i < o.values.length,
      o.query i = .ok (o.values.get ⟨i, h⟩)) ∧
    (∀ o : DenseOracle F, ∀ i : Nat, o.values.length ≤ i →
      o.query i = .error .PointNotFound) := by
  refine ⟨?_, ?_, ?_, ?_⟩
  · intro h
    unfold DenseOracle.new
    rw [Nat.shiftLeft_eq, one_mul, if_pos h]
  · intro h
    unfold DenseOracle.new
    rw [Nat.shiftLeft_eq, one_mul, if_neg (not_not_intro h)]
  · intro o i h
    unfold DenseOracle.query
    rw [List.getElem?_eq_getElem h]
    simp [List.get_eq_getElem]
  · intro o i h
    unfold DenseOracle.query
    rw [List.getElem?_eq_none h]

/-- Witness for C4 at `d = 1` with values `[3, 5]` over `ℚ` (and the
too-short list `[3]` for the failing constructor). -/
theorem dense_oracle_contract_witness :
    DenseOracle.new 1 [(3 : ℚ), 5] = .ok ⟨1, [3, 5]⟩ ∧
    DenseOracle.new 1 [(3 : ℚ)] = .error .IncorrectOracleSize ∧
    (⟨1, [(3 : ℚ), 5]⟩ : DenseOracle ℚ).query 1 = .ok 5 ∧
    (⟨1, [(3 : ℚ), 5]⟩ : DenseOracle ℚ).query 2 = .error .PointNotFound :=
  ⟨(dense_oracle_contract 1 [(3 : ℚ), 5]).2.1 (by decide),
    (dense_oracle_contract 1 [(3 : ℚ)]).1 (by decide),
    (dense_oracle_contract 1 [(3 : ℚ), 5]).2.2.1 ⟨1, [3, 5]⟩ 1 (by decide),
    (dense_oracle_contract 1 [(3 : ℚ), 5]).2.2.2 ⟨1, [3, 5]⟩ 2 (by decide)⟩

/-! Order of the constructor's checks (claim C5). -/

theorem checkEntries_append (d : Nat) (l1 l2 : List (List F × F))
    (h : ∀ e ∈ l1, entryValid d e) :
    checkEntries d (l1 ++ l2) = checkEntries d l2 := by
  induction l1 with
  | nil => simp
  | cons e rest ih =>
    obtain ⟨point, v⟩ := e
    have he := h (point, v) (by simp)
    have he1 : point.length = d := he.1
    rw [List.cons_append]
    simp only [checkEntries]
    rw [if_neg (by omega), if_neg (not_not_intro he.2)]
    exact ih fun x hx => h x (by simp [hx])

theorem new_err_entries (d : Nat) (m : List (List F × F)) (err : OracleError)
    (hlen : m.length = 2 ^ d) (hc : checkEntries d m = .error err) :
    BCubeMapOracle.new d m = .error err := by
  unfold BCubeMapOracle.new
  rw [Nat.shiftLeft_eq, one_mul, if_neg (not_not_intro hlen), hc]

/-- Claim C5, counterexample: over `ℚ` at `dim = 1`, a map whose iteration
order presents first the right-length non-boolean key `[2]` and then the
wrong-length key `[]` is rejected with `NonbooleanOraclePoint` — not with
`IncorrectOraclePointDimension{expected: 1, found: 0}`, as the claim's
global check order (every key's length before any boolean-ness) would
demand, since the code checks each entry fully, in iteration order. -/
theorem new_check_order_counterexample :
    BCubeMapOracle.new 1 [([2], (0 : ℚ)), ([], 0)]
      = .error .NonbooleanOraclePoint ∧
    ¬ BCubeMapOracle.new 1 [([2], (0 : ℚ)), ([], 0)]
      = .error (.IncorrectOraclePointDimension 1 0) := ⟨by decide, by decide⟩

/-- Claim C5 as amended: `BCubeMapOracle::new(dim, mapping)` first checks
that the mapping has exactly `2 ^ dim` entries, else it fails with
`IncorrectOracleSize`; it then scans the entries in iteration order and
fails at the first invalid entry, with
`IncorrectOraclePointDimension{expected: dim, found}` when that entry's key
has the wrong length and with `NonbooleanOraclePoint` when its key has the
right length but a coordinate outside {0, 1}; it returns `Ok` exactly when
all three of the claim's conditions hold. -/
theorem new_validation (d : Nat) (m : List (List F × F)) :
    (BCubeMapOracle.new d m = .ok ⟨d, m⟩ ↔
      m.length = 2 ^ d ∧
        ∀ e ∈ m, e.1.length = d ∧ ∀ x ∈ e.1, x = 0 ∨ x = 1) ∧
    (m.length ≠ 2 ^ d →
      BCubeMapOracle.new d m = .error .IncorrectOracleSize) ∧
    (∀ l1 k v l2, m = l1 ++ (k, v) :: l2 → m.length = 2 ^ d →
      (∀ e ∈ l1, entryValid d e) → k.length ≠ d →
      BCubeMapOracle.new d m
        = .error (.IncorrectOraclePointDimension d k.length)) ∧
    (∀ l1 k v l2, m = l1 ++ (k, v) :: l2 → m.length = 2 ^ d →
      (∀ e ∈ l1, entryValid d e) → k.length = d →
      ¬ (∀ x ∈ k, x = 0 ∨ x = 1) →
      BCubeMapOracle.new d m = .error .NonbooleanOraclePoint) := by
  refine ⟨?_, new_err_size d m, ?_, ?_⟩
  · rw [new_ok_iff]
    constructor
    · rintro ⟨h1, h2, -⟩
      exact ⟨h1, h2⟩
    · rintro ⟨h1, h2⟩
      exact ⟨h1, h2, rfl⟩
  · rintro l1 k v l2 rfl hlen hvalid hk
    refine new_err_entries d _ _ hlen ?_
    rw [checkEntries_append d l1 _ hvalid]
    simp only [checkEntries]
    rw [if_pos hk]
  · rintro l1 k v l2 rfl hlen hvalid hk hb
    refine new_err_entries d _ _ hlen ?_
    rw [checkEntries_append d l1 _ hvalid]
    simp only [checkEntries]
    rw [if_neg (by omega), if_pos hb]

/-- Witness for the amended C5: over `ℚ` at `dim = 1`, a valid map is
accepted, the empty map is rejected for its size, a leading wrong-length
key yields `IncorrectOraclePointDimension{1, 0}` and a leading non-boolean
key yields `NonbooleanOraclePoint`. -/
theorem new_validation_witness :
    BCubeMapOracle.new 1 [([0], (3 : ℚ)), ([1], 5)]
      = .ok ⟨1, [([0], 3), ([1], 5)]⟩ ∧
    BCubeMapOracle.new 1 ([] : List (List ℚ × ℚ))
      = .error .IncorrectOracleSize ∧
    BCubeMapOracle.new 1 [([], (0 : ℚ)), ([0], 0)]
      = .error (.IncorrectOraclePointDimension 1 0) ∧
    BCubeMapOracle.new 1 [([2], (0 : ℚ)), ([0], 0)]
      = .error .NonbooleanOraclePoint :=
  ⟨(new_validation 1 _).1.mpr ⟨by decide, by decide⟩,
    (new_validation 1 _).2.1 (by decide),
    (new_validation 1 _).2.2.1 [] [] 0 [([0], 0)] rfl (by decide)
      (by decide) (by decide),
    (new_validation 1 _).2.2.2 [] [2] 0 [([0], 0)] rfl (by decide)
      (by decide) (by decide) (by decide)⟩

/-- Claim C7: for every well-formed oracle (all keys of the declared
dimension) and every input `z` of the right length, naive evaluation does
not depend on the order in which the oracle's entries are iterated and
folded: any permutation of the entry list evaluates to the same result. -/
theorem naive_order_independent (d : Nat) (z : List F)
    (m m2 : List (List F × F)) (hperm : m.Perm m2)
    (hkeys : ∀ e ∈ m, e.1.length = d) (hz : z.length = d) :
    (MultilinearExtension.new ⟨d, m⟩ d .Naive).evaluate z
      = (MultilinearExtension.new ⟨d, m2⟩ d .Naive).evaluate z := by
  have h1 : ∀ e ∈ m, e.1.length = z.length := fun e he => by
    rw [hz]
    exact hkeys e he
  have h2 : ∀ e ∈ m2, e.1.length = z.length := fun e he => by
    rw [hz]
    exact hkeys e (hperm.mem_iff.mpr he)
  rw [evaluate_naive, evaluate_naive, naive_sum ⟨d, m⟩ d z hz h1,
    naive_sum ⟨d, m2⟩ d z hz h2]
  have hps : (m.map fun e => e.2 * eqP e.1 z).Perm
      (m2.map fun e => e.2 * eqP e.1 z) := hperm.map _
  rw [hps.sum_eq]

/-- Witness for C7 at `d = 1`, `z = [2]` over `ℚ` and the two iteration
orders of the map `{[0] ↦ 3, [1] ↦ 5}`. -/
theorem naive_order_independent_witness :
    (([([0], (3 : ℚ)), ([1], 5)]).Perm [([1], (5 : ℚ)), ([0], 3)] ∧
      (∀ e ∈ [([0], (3 : ℚ)), ([1], 5)], e.1.length = 1) ∧
      ([(2 : ℚ)]).length = 1) ∧
    (MultilinearExtension.new
        (⟨1, [([0], (3 : ℚ)), ([1], 5)]⟩ : BCubeMapOracle ℚ) 1 .Naive).evaluate
        [(2 : ℚ)]
      = (MultilinearExtension.new
        (⟨1, [([1], (5 : ℚ)), ([0], 3)]⟩ : BCubeMapOracle ℚ) 1 .Naive).evaluate
        [(2 : ℚ)] :=
  ⟨⟨List.Perm.swap ([1], (5 : ℚ)) ([0], 3) [], by decide, by decide⟩,
    naive_order_independent 1 [(2 : ℚ)] _ _
      (List.Perm.swap ([1], (5 : ℚ)) ([0], 3) []) (by decide) (by decide)⟩

/-! Affinity of the basis product and of the evaluated sum in one
coordinate (claim C8). -/

theorem eqP_set_affine (k : Nat) (b z : List F) (hlen : b.length = z.length)
    (hk : k < z.length) :
    ∃ a c : F, ∀ t : F, eqP b (z.set k t) = a * t + c := by
  induction k generalizing b z with
  | zero =>
    cases z with
    | nil => simp at hk
    | cons z0 zs =>
      cases b with
      | nil => simp at hlen
      | cons b0 bs =>
        refine ⟨(b0 + b0 - 1) * eqP bs zs, (1 - b0) * eqP bs zs, fun t => ?_⟩
        show eqP (b0 :: bs) (t :: zs) = _
        rw [eqP_cons]
        ring
  | succ k ih =>
    cases z with
    | nil => simp at hk
    | cons z0 zs =>
      cases b with
      | nil => simp at hlen
      | cons b0 bs =>
        obtain ⟨a, c, hac⟩ := ih bs zs (by simpa using hlen) (by simpa using hk)
        refine ⟨(b0 * z0 + (1 - b0) * (1 - z0)) * a,
          (b0 * z0 + (1 - b0) * (1 - z0)) * c, fun t => ?_⟩
        show eqP (b0 :: bs) (z0 :: zs.set k t) = _
        rw [eqP_cons, hac t]
        ring

theorem sum_affine (k : Nat) (z : List F) (m : List (List F × F))
    (hkeys : ∀ e ∈ m, e.1.length = z.length) (hk : k < z.length) :
    ∃ a c : F, ∀ t : F,
      (m.map fun e => e.2 * eqP e.1 (z.set k t)).sum = a * t + c := by
  induction m with
  | nil => exact ⟨0, 0, fun t => by simp⟩
  | cons e rest ih =>
    obtain ⟨a1, c1, h1⟩ := eqP_set_affine k e.1 z (hkeys e (by simp)) hk
    obtain ⟨a2, c2, h2⟩ := ih fun x hx => hkeys x (by simp [hx])
    refine ⟨e.2 * a1 + a2, e.2 * c1 + c2, fun t => ?_⟩
    rw [List.map_cons, List.sum_cons, h1 t, h2 t]
    ring

/-- Claim C8: for every oracle successfully constructed by
`BCubeMapOracle::new`, every coordinate `k < d` and every fixing `z` of the
other coordinates, naive evaluation is an affine function of coordinate
`k`: there are field constants `a, c` with
`evaluate(z[k := t]) = Ok(a * t + c)` for every value `t`. -/
theorem naive_multilinear (d k : Nat) (z : List F)
    (m : List (List F × F)) (o : BCubeMapOracle F)
    (hnew : BCubeMapOracle.new d m = .ok o)
    (hz : z.length = d) (hk : k < d) :
    ∃ a c : F, ∀ t : F,
      (MultilinearExtension.new o d .Naive).evaluate (z.set k t)
        = some (.ok (a * t + c)) := by
  obtain ⟨hlen, hvalid, rfl⟩ := (new_ok_iff d m o).mp hnew
  have hkeys : ∀ e ∈ m, e.1.length = z.length := fun e he => by
    rw [hz]
    exact (hvalid e he).1
  obtain ⟨a, c, hac⟩ := sum_affine k z m hkeys (by omega)
  refine ⟨a, c, fun t => ?_⟩
  have hzs : (z.set k t).length = d := by simp [hz]
  have hkeys2 : ∀ e ∈ m, e.1.length = (z.set k t).length := by
    intro e he
    rw [List.length_set]
    exact hkeys e he
  rw [evaluate_naive, naive_sum ⟨d, m⟩ d _ hzs hkeys2, hac t]

/-- Witness for C8 at `d = 1`, `k = 0`, base point `z = [0]` over `ℚ` and
the map `{[0] ↦ 3, [1] ↦ 5}`. -/
theorem naive_multilinear_witness :
    (BCubeMapOracle.new 1 [([0], (3 : ℚ)), ([1], 5)]
        = .ok ⟨1, [([0], 3), ([1], 5)]⟩ ∧
      ([(0 : ℚ)]).length = 1 ∧ 0 < 1) ∧
    ∃ a c : ℚ, ∀ t : ℚ,
      (MultilinearExtension.new
          (⟨1, [([0], (3 : ℚ)), ([1], 5)]⟩ : BCubeMapOracle ℚ) 1 .Naive).evaluate
          ([(0 : ℚ)].set 0 t) = some (.ok (a * t + c)) :=
  ⟨⟨by decide, by decide, by decide⟩,
    naive_multilinear 1 0 [(0 : ℚ)] [([0], 3), ([1], 5)] _
      (by decide) (by decide) (by decide)⟩

/-! The canonical map built by `new_rand` (claim C9). -/

theorem insertKV_fresh (m : List (List F × F)) (k : List F) (v : F)
    (h : ¬ k ∈ m.map Prod.fst) : insertKV m k v = m ++ [(k, v)] := by
  induction m with
  | nil => rfl
  | cons e rest ih =>
    have hne : ¬ e.1 = k := fun he => h (by
      rw [List.map_cons]
      exact List.mem_cons.mpr (Or.inl he.symm))
    rw [insertKV, if_neg hne, ih fun hk => h (by
      rw [List.map_cons]
      exact List.mem_cons.mpr (Or.inr hk))]
    rfl

theorem new_rand_build (d : Nat) (vals : Nat → F) :
    ∀ N ≤ 2 ^ d,
      (List.range N).foldl
        (fun m n => insertKV m (to_bcube_elt (F := F) d n) (vals n)) []
      = (List.range N).map fun n => (to_bcube_elt (F := F) d n, vals n) := by
  intro N
  induction N with
  | zero => intro _; rfl
  | succ N ih =>
    intro hN
    rw [List.range_succ, List.foldl_append, List.foldl_cons, List.foldl_nil,
      ih (by omega), List.map_append, List.map_singleton]
    rw [insertKV_fresh]
    intro hmem
    rw [List.map_map] at hmem
    simp only [List.mem_map, List.mem_range, Function.comp] at hmem
    obtain ⟨n, hn, heq⟩ := hmem
    have := to_bcube_elt_injOn d n N (by omega) (by omega) heq
    omega

/-- Claim C9: for every dimension and every random source,
`BCubeMapOracle::new_rand(dim, rng)` returns `Ok` (its validation never
fails), and the generated map is exactly the canonical one: its keys are
the bit-decompositions `to_bcube_elt(dim, n)` of the `2 ^ dim` indices in
order, they are pairwise distinct, and each has length `dim` with every
coordinate 0 or 1. -/
theorem new_rand_always_ok (d : Nat) (vals : Nat → F) :
    BCubeMapOracle.new_rand d vals
      = .ok ⟨d, (List.range (2 ^ d)).map
          fun n => (to_bcube_elt (F := F) d n, vals n)⟩ ∧
    ((List.range (2 ^ d)).map fun n => to_bcube_elt (F := F) d n).Nodup ∧
    (∀ n < 2 ^ d, (to_bcube_elt (F := F) d n).length = d ∧
      ∀ x ∈ to_bcube_elt (F := F) d n, x = 0 ∨ x = 1) := by
  refine ⟨?_, ?_, fun n _ => ⟨length_to_bcube_elt d n, to_bcube_elt_boolean d n⟩⟩
  · unfold BCubeMapOracle.new_rand
    simp only [Nat.shiftLeft_eq, one_mul]
    rw [new_rand_build d vals (2 ^ d) le_rfl]
    rw [new_ok_iff]
    refine ⟨by simp, ?_, rfl⟩
    intro e he
    simp only [List.mem_map, List.mem_range] at he
    obtain ⟨n, -, rfl⟩ := he
    exact ⟨length_to_bcube_elt d n, to_bcube_elt_boolean d n⟩
  · refine List.Nodup.map_on ?_ (List.nodup_range _)
    intro x hx y hy hxy
    rw [List.mem_range] at hx hy
    exact to_bcube_elt_injOn d x y hx hy hxy

/-- Witness for C2 at a concrete dimension-1 oracle over `ℚ` and
`z = [2]`: every unimplemented strategy aborts. -/
theorem unimplemented_strategies_abort_witness :
    (MultilinearExtension.new
        (⟨1, [([0], (3 : ℚ)), ([1], 5)]⟩ : BCubeMapOracle ℚ) 1 .Zhu).evaluate
        [(2 : ℚ)] = none ∧
    (MultilinearExtension.new
        (⟨1, [([0], (3 : ℚ)), ([1], 5)]⟩ : BCubeMapOracle ℚ) 1 .Rothblum).evaluate
        [(2 : ℚ)] = none ∧
    (MultilinearExtension.new
        (⟨1, [([0], (3 : ℚ)), ([1], 5)]⟩ : BCubeMapOracle ℚ) 1 .Ramakrishna).evaluate
        [(2 : ℚ)] = none :=
  unimplemented_strategies_abort ⟨1, [([0], 3), ([1], 5)]⟩ 1 [(2 : ℚ)]

/-- Witness for C6 over `ℚ` with the spec's stored value 9. -/
theorem naive_dim_zero_witness :
    BCubeMapOracle.new 0 [([], (9 : ℚ))] = .ok ⟨0, [([], 9)]⟩ ∧
    (MultilinearExtension.new
        (⟨0, [([], (9 : ℚ))]⟩ : BCubeMapOracle ℚ) 0 .Naive).evaluate []
      = some (.ok 9) :=
  naive_dim_zero (9 : ℚ)

/-- Witness for C9 at `d = 1` over `ℚ` with the draw sequence `n ↦ n`. -/
theorem new_rand_always_ok_witness :
    BCubeMapOracle.new_rand 1 (fun n => (n : ℚ))
      = .ok ⟨1, (List.range (2 ^ 1)).map
          fun n => (to_bcube_elt (F := ℚ) 1 n, (n : ℚ))⟩ ∧
    ((List.range (2 ^ 1)).map fun n => to_bcube_elt (F := ℚ) 1 n).Nodup ∧
    (∀ n < 2 ^ 1, (to_bcube_elt (F := ℚ) 1 n).length = 1 ∧
      ∀ x ∈ to_bcube_elt (F := ℚ) 1 n, x = 0 ∨ x = 1) :=
  new_rand_always_ok 1 fun n => (n : ℚ)

end Sumcheck
